import Mathlib

/-!
Verification of the ObjectListView data-model core.

This file gives a shallow embedding, in Lean, of the parts of the
repository's Python source that the checked claims are about:

* the grouping engine (`DataObjectListView._BuildGroups`),
* the cell-attribute resolution (`NormalListModel.GetAttr`),
* the sort-value construction and comparison functions
  (`NormalListModel.GetSortValue`, `Compare_None`, `Compare_Row`,
  `Compare_GroupRow`, `ObjectListView._SortObjects`),
* the column value accessors (`ColumnDefn._Munge`,
  `ColumnDefn._SetValueUsingMunger`, `ColumnDefn.GetValue`,
  `ColumnDefn.SetValue`),
* the navigation engine (`NormalListModel.GetChildren`, `GetParent`,
  `GetFirstItem`, `GetLastItem`, `GetNextSibling`, `GetPreviousSibling`,
  `GetNextItem`, `GetPreviousItem`, `IsContainer`).

Python dictionaries are embedded as insertion-ordered association lists,
Python object identity as decidable equality on an abstract object type,
raised-and-caught exceptions as `Option`, and in-place mutation either as
explicit state passing or as an explicit effect value.
-/

namespace OLV

open scoped List

/-! ## Grouping engine

Embedding of `DataObjectListView._BuildGroups`
(src/ObjectListView/DataObjectListView.py, lines 1327-1381).
A `DataListGroup` carries its raw key, its display title and its member
list; `isEmptyGroup` marks groups built by the `DataListEmptyGroup`
constructor (the synthesized empty groups).  The `olv` back reference,
the expansion-preservation bookkeeping and the `GroupCreationEvent`
(whose default handler returns the groups unchanged) do not affect the
partition and are not modelled.
-/

structure DataListGroup (κ μ : Type) where
  key : κ
  title : String
  modelObjects : List μ
  isEmptyGroup : Bool
deriving DecidableEq

/-- One iteration of the partition loop of `_BuildGroups`: compute the
model's group key, look the group up in the insertion-ordered map,
creating it on first sight, and append the model to it
(`group = groupMap.get(key); if group is None: ... ; group.Add(model)`). -/
def buildStep [DecidableEq κ] (getGroupKey : μ → κ) (keyToString : κ → String)
    (groupMap : List (DataListGroup κ μ)) (model : μ) : List (DataListGroup κ μ) :=
  if groupMap.any (fun g => g.key = getGroupKey model) then
    groupMap.map (fun g =>
      if g.key = getGroupKey model then
        { g with modelObjects := g.modelObjects ++ [model] }
      else g)
  else
    groupMap ++ [⟨getGroupKey model, keyToString (getGroupKey model), [model], false⟩]

/-- The partition loop of `_BuildGroups` over all model objects. -/
def buildCore [DecidableEq κ] (getGroupKey : μ → κ) (keyToString : κ → String)
    (modelObjects : List μ) : List (DataListGroup κ μ) :=
  modelObjects.foldl (buildStep getGroupKey keyToString) []

/-- The second loop of `_BuildGroups`: for every key in `self.emptyGroups`
that did not already receive a group, append a `DataListEmptyGroup`. -/
def addEmptyGroups [DecidableEq κ] (keyToString : κ → String)
    (emptyGroups : List κ) (groupMap : List (DataListGroup κ μ)) : List (DataListGroup κ μ) :=
  emptyGroups.foldl (fun m key =>
    if m.any (fun g => g.key = key) then m
    else m ++ [⟨key, keyToString key, [], true⟩]) groupMap

/-- Embedding of `DataObjectListView._BuildGroups` (the group-title
rebuild only rewrites `title` fields and the creation event's default
handler returns the groups unchanged, so both are omitted). -/
def _BuildGroups [DecidableEq κ] (getGroupKey : μ → κ) (keyToString : κ → String)
    (emptyGroups : List κ) (modelObjects : List μ) : List (DataListGroup κ μ) :=
  addEmptyGroups keyToString emptyGroups (buildCore getGroupKey keyToString modelObjects)

/-- All members reported by a collection of groups, in group order. -/
def membersAll (groups : List (DataListGroup κ μ)) : List μ :=
  groups.flatMap (fun g => g.modelObjects)

/-- The invariant maintained by the partition loop: group keys are
pairwise distinct, and every member of a group has that group's key. -/
def GroupsInv (getGroupKey : μ → κ) (m : List (DataListGroup κ μ)) : Prop :=
  (m.map (fun g => g.key)).Nodup ∧ ∀ g ∈ m, ∀ o ∈ g.modelObjects, getGroupKey o = g.key

/-! ## Cell attribute resolution

Embedding of `NormalListModel.GetAttr`
(src/ObjectListView/DataObjectListView.py, lines 3231-3302), restricted
to non-group rows (the `DataListGroup` branch, which applies the group
font and optionally `colorOverride_groupFunction`, is taken before this
chain and is outside the claim's scope; the trailing `rowFormatter`
hook runs after it).  `ρ` is the type of row model objects, `γ` the
colour type.  A colour registered in an override map is either a single
colour or an odd/even pair (`applyColor` catches the `TypeError` from
`SetBackgroundColour` and picks a pair component); the user colour
function may raise, which the code catches and treats as returning
`None`, so it is modelled as returning `Option`. -/

inductive ColorSpec (γ : Type) where
  | single (c : γ)
  | pair (c1 c2 : γ)
deriving DecidableEq

structure AttrModel (ρ γ : Type) where
  colorOverride_function : Option (ρ → Nat → Option (ColorSpec γ))
  colorOverride_cell : ρ × Nat → Option (ColorSpec γ)
  colorOverride_column : Nat → Option (ColorSpec γ)
  colorOverride_row : ρ → Option (ColorSpec γ)
  sortCounter : Option Nat
  sort_colorCatalogue : ρ → Option γ
  colorCatalogue : ρ → Option γ
  oddRowsBackColor : γ
  evenRowsBackColor : γ

/-- The nested `applyColor` helper of `GetAttr`: a single colour is set
directly; for an odd/even pair the `odd` test consults the colour
catalogue cached during `GetChildren`. -/
def applyColor [DecidableEq γ] (m : AttrModel ρ γ) (node : ρ) (color : ColorSpec γ) : γ :=
  match color with
  | .single c => c
  | .pair c1 c2 =>
    match m.colorCatalogue node with
    | none => c1
    | some c => if c = m.oddRowsBackColor then c1 else c2

/-- The background colour set by `GetAttr` for a non-group row, `none`
when no branch of the chain sets one.  The chain order is taken from the
source: the user colour function first, then the cell, column and row
override maps, then the post-sort catalogue (when a sort started a fresh
`sortCounter`), then the cached alternating catalogue. -/
def GetAttr_backColor [DecidableEq γ] (m : AttrModel ρ γ) (node : ρ) (column : Nat) :
    Option γ :=
  let afterFunction : Option γ :=
    match m.colorOverride_cell (node, column) with
    | some color => some (applyColor m node color)
    | none =>
      match m.colorOverride_column column with
      | some color => some (applyColor m node color)
      | none =>
        match m.colorOverride_row node with
        | some color => some (applyColor m node color)
        | none =>
          match m.sortCounter with
          | some sortCounter =>
            some (match m.sort_colorCatalogue node with
              | some c => c
              | none =>
                if sortCounter % 2 = 1 then m.evenRowsBackColor else m.oddRowsBackColor)
          | none =>
            match m.colorCatalogue node with
            | some c => some c
            | none => none
  match m.colorOverride_function with
  | some f =>
    match f node column with
    | some color => some (applyColor m node color)
    | none => afterFunction
  | none => afterFunction

/-- An attribute model in which a cell, a column, a row override and a
colour function are all registered for row `0`, column `0`, each with a
different colour. -/
def attrAllRegistered : AttrModel Nat Nat where
  colorOverride_function := some (fun _ _ => some (.single 4))
  colorOverride_cell := fun p => if p = (0, 0) then some (.single 1) else none
  colorOverride_column := fun c => if c = 0 then some (.single 2) else none
  colorOverride_row := fun r => if r = 0 then some (.single 3) else none
  sortCounter := none
  sort_colorCatalogue := fun _ => none
  colorCatalogue := fun _ => none
  oddRowsBackColor := 10
  evenRowsBackColor := 11

/-- An attribute model whose colour function gives no opinion on
row `0`, column `0`, while a cell override is registered there. -/
def attrFunctionNoOpinion : AttrModel Nat Nat where
  colorOverride_function := some (fun _ _ => none)
  colorOverride_cell := fun p => if p = (0, 0) then some (.single 1) else none
  colorOverride_column := fun _ => some (.single 2)
  colorOverride_row := fun _ => some (.single 3)
  sortCounter := none
  sort_colorCatalogue := fun _ => none
  colorCatalogue := fun _ => none
  oddRowsBackColor := 10
  evenRowsBackColor := 11

/-! ## Sort values and the compare functions

Embedding of `NormalListModel.GetSortValue`, `Compare_None`,
`Compare_Row` and `Compare_GroupRow`
(src/ObjectListView/DataObjectListView.py, lines 3742-3837).  Rows are
either `DataListGroup`s or plain model objects; cell values used for
sorting are modelled as `Option Int` (`none` embeds Python's `None`;
the `value.lower()` case fold is the identity on non-strings and so on
these values).  The bitmap-renderer branch of `GetSortValue`, which
returns the constant pair `(False, 0)`, is kept behind the per-column
`imageColumn` flag.  A custom comparator returns `Option Int`: `none`
embeds the Python `None` "no opinion" sentinel. -/

inductive CmpNode (ρ : Type) where
  | group (i : Nat)
  | row (o : ρ)
deriving DecidableEq

structure SortModel (ρ : Type) where
  getSortRaw : CmpNode ρ → Nat → Option Int
  imageColumn : Nat → Bool
  compareFunction : CmpNode ρ → CmpNode ρ → Nat → Bool → Option Int
  groupCompareFunction : CmpNode ρ → CmpNode ρ → Nat → Bool → Option Int

/-- Embedding of `GetSortValue`: the value to be used for sorting is the
pair `(value is None, value)`; image columns compare as the constant
`(False, 0)`. -/
def GetSortValue (m : SortModel ρ) (item : CmpNode ρ) (column : Nat) : Bool × Option Int :=
  if m.imageColumn column then (false, some 0)
  else
    let value := m.getSortRaw item column
    (value.isNone, value)

/-- Python's `<` on the pairs produced by `GetSortValue`: booleans
compare with `False < True`; the second components are compared only
when the booleans are equal, in which case they are either both present
integers or both `None` (and `None == None`, so neither is smaller). -/
def sortPairLt (p q : Bool × Option Int) : Bool :=
  (!p.1 && q.1) ||
    (p.1 == q.1 &&
      match p.2, q.2 with
      | some a, some b => decide (a < b)
      | _, _ => false)

/-- Embedding of `Compare_None`, the default compare function: compare
the two sort values and fold the requested direction into the sign of
the result, `(1, -1)[ascending]` for less and `(-1, 1)[ascending]` for
greater. -/
def Compare_None (m : SortModel ρ) (item1 item2 : CmpNode ρ) (column : Nat)
    (ascending : Bool) : Int :=
  let value1 := GetSortValue m item1 column
  let value2 := GetSortValue m item2 column
  if sortPairLt value1 value2 then (if ascending then -1 else 1)
  else if sortPairLt value2 value1 then (if ascending then 1 else -1)
  else 0

/-- Embedding of `Compare_Row`: for non-group rows the user comparator
is consulted first and its answer used whenever it is not `None`. -/
def Compare_Row (m : SortModel ρ) (item1 item2 : CmpNode ρ) (column : Nat)
    (ascending : Bool) : Int :=
  match item1 with
  | .group _ => Compare_None m item1 item2 column ascending
  | .row _ =>
    match m.compareFunction item1 item2 column ascending with
    | some answer => answer
    | none => Compare_None m item1 item2 column ascending

/-- Embedding of `Compare_GroupRow`: group rows consult the group
comparator, other rows the row comparator; a non-`None` answer is used,
otherwise the default comparison runs. -/
def Compare_GroupRow (m : SortModel ρ) (item1 item2 : CmpNode ρ) (column : Nat)
    (ascending : Bool) : Int :=
  match
    (match item1 with
     | .group _ => m.groupCompareFunction item1 item2 column ascending
     | .row _ => m.compareFunction item1 item2 column ascending) with
  | some answer => answer
  | none => Compare_None m item1 item2 column ascending

/-- A sort model on which the first row's sort value is missing and the
second row's is present. -/
def sortModelNoneFirstArg : SortModel Nat where
  getSortRaw := fun item _ =>
    match item with
    | .row 0 => none
    | _ => some 0
  imageColumn := fun _ => false
  compareFunction := fun _ _ _ _ => none
  groupCompareFunction := fun _ _ _ _ => none

/-- A sort model whose custom row comparator answers `0` on the pair of
rows `0` and `1` and has no opinion on the pair of rows `2` and `3`,
while the underlying sort values of all four rows differ. -/
def sortModelCustom : SortModel Nat where
  getSortRaw := fun item _ =>
    match item with
    | .row o => some (Int.ofNat o)
    | .group _ => some 0
  imageColumn := fun _ => false
  compareFunction := fun a _ _ _ =>
    match a with
    | .row 0 => some 0
    | _ => none
  groupCompareFunction := fun _ _ _ _ => none

/-! ## In-place sorting of the object list

Embedding of `ObjectListView._SortObjects`
(src/ObjectListView/ObjectListView.py, lines 1940-1996), on the default
path: the sort event is not vetoed and no `defaultSortFunction` is
installed, so the list is sorted by `modelObjects.sort` with the key
`_getSortValue x = (primary is None, primary)` and
`reverse = not sortAscending` (the secondary-sort-column branch, which
appends a tie-break component to the key, is not exercised here).
Python's `list.sort` is a stable sort, and its documentation guarantees
that `reverse=True` also preserves the original order of equal keys; it
is therefore embedded as the canonical stable sort `List.insertionSort`
over the corresponding total preorder: `key a ≤ key b` when ascending
and `key b ≤ key a` when descending, where `≤` is the negation of the
strict pair order `sortPairLt`. -/

/-- The sort key of `_SortObjects`: `(primary is None, primary)`. -/
def _getSortValue (getValue : μ → Option Int) (x : μ) : Bool × Option Int :=
  ((getValue x).isNone, getValue x)

/-- Non-strict comparison between sort keys: `p` may come before `q`. -/
def sortPairLe (p q : Bool × Option Int) : Bool :=
  !(sortPairLt q p)

/-- Embedding of `_SortObjects` in the non-vetoed, default-key case. -/
def _SortObjects (getValue : μ → Option Int) (sortAscending : Bool)
    (modelObjects : List μ) : List μ :=
  List.insertionSort
    (fun a b =>
      (if sortAscending then
        sortPairLe (_getSortValue getValue a) (_getSortValue getValue b)
      else
        sortPairLe (_getSortValue getValue b) (_getSortValue getValue a)) = true)
    modelObjects

/-! ## Column value accessors

Embedding of `ColumnDefn._Munge`, `ColumnDefn.GetValue`,
`ColumnDefn._SetValueUsingMunger` and `ColumnDefn.SetValue`
(src/ObjectListView/ObjectListView.py, lines 3893-3897, 3993-4106).

A munger is, dynamically, a callable, an attribute name (a string) or an
integer index; it is embedded as the tagged union the spec's design
notes prescribe.  A string munger plays a double role: it is first tried
as an attribute name and later as a dictionary key, so the `name` tag
covers both; the `index` tag covers non-string keys, on which
`getattr` raises the `TypeError` that the code catches.

A model object is embedded by what the resolution code can observe of
it: its attribute table (`getattr`; an attribute holding `None` is
recorded separately because `_Munge` treats it as absent while
`_SetValueUsingMunger` assigns over it), its read indexing (`obj[key]`,
with `none` for any raised exception), and whether indexed and
attribute assignment succeed.  A callable attribute is modelled with
the value its zero-argument call returns; a callable munger with the
function it computes, `none` standing for a raised-and-caught
`TypeError`.  The embedding is total: every resolution failure is a
caught exception, which is the claim's "never propagates" clause. -/

inductive PyAttr (ν : Type) where
  | plain (v : ν)
  | noneVal
  | method (r : ν)
deriving DecidableEq

structure PyObject (ν : Type) where
  getattr : String → Option (PyAttr ν)
  getitem_str : String → Option ν
  getitem_int : Int → Option ν
  setitem_str_ok : String → Bool
  setitem_int_ok : Int → Bool
  setattr_ok : String → Bool

inductive Munger (ν : Type) where
  | callable (f : PyObject ν → Option ν)
  | name (s : String)
  | index (i : Int)

/-- Embedding of `ColumnDefn._Munge`: try attribute access (calling the
attribute when callable, otherwise using its value; an absent or
`None`-valued attribute falls through), then calling the munger itself
(a `TypeError`, from a non-callable munger or from the call, falls
through), then indexed access, whose failure yields the `None`
sentinel.  A callable munger used as an index key fails the final
lookup, so its caught `TypeError` also ends in the sentinel. -/
def _Munge (munger : Option (Munger ν)) (modelObject : PyObject ν) : Option ν :=
  match munger with
  | none => none
  | some (.name s) =>
    match modelObject.getattr s with
    | some (.plain v) => some v
    | some (.method r) => some r
    | some .noneVal => modelObject.getitem_str s
    | none => modelObject.getitem_str s
  | some (.callable f) =>
    match f modelObject with
    | some v => some v
    | none => none
  | some (.index i) => modelObject.getitem_int i

structure ColumnDefn (ν : Type) where
  valueGetter : Option (Munger ν)
  valueSetter : Option (Munger ν)

/-- Embedding of `ColumnDefn.GetValue`. -/
def ColumnDefn.GetValue (self : ColumnDefn ν) (modelObject : PyObject ν) : Option ν :=
  _Munge self.valueGetter modelObject

/-- The mutation performed by `_SetValueUsingMunger`, reported as an
explicit effect. -/
inductive SetEffect (ν : Type) where
  | noop
  | calledMunger
  | setitem_str (s : String) (v : ν)
  | setitem_int (i : Int) (v : ν)
  | calledMethod (s : String) (v : ν)
  | setattr (s : String) (v : ν)
deriving DecidableEq

/-- Embedding of `ColumnDefn._SetValueUsingMunger`: a callable munger is
invoked only when `shouldInvokeCallable`; otherwise indexed assignment
is tried first, then the attribute is fetched (`TypeError` and
`AttributeError` end the attempt), a callable attribute is invoked only
when `shouldInvokeCallable`, and anything else is assigned over with
`setattr`, whose failure is swallowed. -/
def _SetValueUsingMunger (modelObject : PyObject ν) (value : ν)
    (munger : Option (Munger ν)) (shouldInvokeCallable : Bool) : SetEffect ν :=
  match munger with
  | none => .noop
  | some (.callable _) => if shouldInvokeCallable then .calledMunger else .noop
  | some (.name s) =>
    if modelObject.setitem_str_ok s then .setitem_str s value
    else
      match modelObject.getattr s with
      | none => .noop
      | some (.method _) => if shouldInvokeCallable then .calledMethod s value else .noop
      | some (.plain _) => if modelObject.setattr_ok s then .setattr s value else .noop
      | some .noneVal => if modelObject.setattr_ok s then .setattr s value else .noop
  | some (.index i) =>
    if modelObject.setitem_int_ok i then .setitem_int i value else .noop

/-- Embedding of `ColumnDefn.SetValue`: the setter munger when one was
given, otherwise the getter munger with `shouldInvokeCallable = False`. -/
def ColumnDefn.SetValue (self : ColumnDefn ν) (modelObject : PyObject ν) (value : ν) :
    SetEffect ν :=
  match self.valueSetter with
  | none => _SetValueUsingMunger modelObject value self.valueGetter false
  | some _ => _SetValueUsingMunger modelObject value self.valueSetter true

/-- A model object on which the name `x` resolves both as a plain
attribute (value `5`) and as a dictionary key (value `7`), every
assignment form succeeds, and nothing else resolves. -/
def pyObjBoth : PyObject Nat where
  getattr := fun s => if s = "x" then some (.plain 5) else none
  getitem_str := fun s => if s = "x" then some 7 else none
  getitem_int := fun _ => none
  setitem_str_ok := fun s => s = "x"
  setitem_int_ok := fun _ => false
  setattr_ok := fun _ => true

/-- A model object with no assignable index slot, a plain attribute `x`
and assignable attributes. -/
def pyObjAttrOnly : PyObject Nat where
  getattr := fun s => if s = "x" then some (.plain 5) else none
  getitem_str := fun _ => none
  getitem_int := fun _ => none
  setitem_str_ok := fun _ => false
  setitem_int_ok := fun _ => false
  setattr_ok := fun _ => true

/-! ## Navigation engine

Embedding of `NormalListModel.GetChildren`, `GetParent`, `GetFirstItem`,
`GetLastItem`, `GetPreviousSibling`, `GetNextSibling`,
`GetPreviousItem`, `GetNextItem` and `IsContainer`
(src/ObjectListView/DataObjectListView.py, lines 3306-3468 and
3590-3606).

A `wx.dataview.DataViewItem` wraps the identity of a Python node: the
invalid item (`NullDataViewItem`, for which `IsOk` is false), a
`DataListGroup`, or a plain model object; it is embedded as `NavItem`,
with groups identified by their position in `self.olv.groups`.  The
colour-catalogue writes done inside `GetChildren` do not affect which
children are returned and are modelled in the attribute section.
`self.olv.IsExpanded` is toolkit state: per-group expansion, false on
any non-container item.  Python's `children[0]` and `children[-1]` on
an empty list raise `IndexError`, so `GetNextItem` and
`GetPreviousItem` return `Option`, `none` standing for that error. -/

inductive NavItem (ρ : Type) where
  | null
  | group (i : Nat)
  | row (o : ρ)
deriving DecidableEq

structure NavGroup (κ ρ : Type) where
  key : κ
  modelObjects : List ρ
deriving DecidableEq

structure NavState (κ ρ : Type) where
  showGroups : Bool
  groups : List (NavGroup κ ρ)
  modelObjects : List ρ
  showEmptyGroups : Bool
  emptyGroups : List κ
  expandedGroup : Nat → Bool
  rowFilter : Option (ρ → Bool)

/-- The nested `applyRowFilter` helper of `GetChildren`. -/
def applyRowFilter (s : NavState κ ρ) (rows : List ρ) : List ρ :=
  match s.rowFilter with
  | some f => rows.filter f
  | none => rows

/-- Embedding of `GetChildren` (by way of `GetChildrenList`): the hidden
root's children are the groups when grouping is shown — skipping a
group whose filtered member list is empty unless empty groups are shown
and its key is registered in `emptyGroups` — or the filtered objects
otherwise; a group's children are its filtered members; any other node
has no children.  The reported count is the length of this list. -/
def GetChildrenList [DecidableEq κ] (s : NavState κ ρ) (parent : NavItem ρ) :
    List (NavItem ρ) :=
  match parent with
  | .null =>
    if s.showGroups then
      (s.groups.enum.filter (fun p =>
        !(applyRowFilter s p.2.modelObjects).isEmpty ||
          (s.showEmptyGroups && decide (p.2.key ∈ s.emptyGroups)))).map
        (fun p => NavItem.group p.1)
    else
      (applyRowFilter s s.modelObjects).map NavItem.row
  | .group i =>
    match s.groups[i]? with
    | some g => (applyRowFilter s g.modelObjects).map NavItem.row
    | none => []
  | .row _ => []

/-- Embedding of `GetParent`: the invalid item when grouping is off or
for groups and the root; for a plain object, the first group whose
member list contains it. -/
def GetParent [DecidableEq κ] [DecidableEq ρ] (s : NavState κ ρ) (item : NavItem ρ) :
    NavItem ρ :=
  if !s.showGroups then .null
  else
    match item with
    | .null => .null
    | .group _ => .null
    | .row o =>
      match s.groups.findIdx? (fun g => decide (o ∈ g.modelObjects)) with
      | some i => .group i
      | none => .null

/-- Embedding of `GetFirstItem`: the first root child, or the invalid
item when there are none. -/
def GetFirstItem [DecidableEq κ] (s : NavState κ ρ) : NavItem ρ :=
  (GetChildrenList s .null).headD .null

/-- Embedding of `GetLastItem`: the last root child, or the invalid
item when there are none. -/
def GetLastItem [DecidableEq κ] (s : NavState κ ρ) : NavItem ρ :=
  (GetChildrenList s .null).getLastD .null

/-- The toolkit's `IsExpanded`: per-group expansion state; false on any
item that is not a container. -/
def IsExpanded (s : NavState κ ρ) (item : NavItem ρ) : Bool :=
  match item with
  | .group i => s.expandedGroup i
  | _ => false

/-- The loop of `GetPreviousSibling`: the element last seen before the
first occurrence of `item` (the code returns whatever `previousItem`
holds when the loop ends, so an absent `item` yields the last element). -/
def prevBefore [DecidableEq α] (item : α) : α → List α → α
  | prev, [] => prev
  | prev, x :: xs => if x = item then prev else prevBefore item x xs

/-- The loop of `GetNextSibling`: the element following the first
occurrence of `item`, if any. -/
def nextAfter [DecidableEq α] (item : α) : List α → Option α
  | [] => none
  | x :: xs => if x = item then xs.head? else nextAfter item xs

/-- Embedding of `GetPreviousSibling`. -/
def GetPreviousSibling [DecidableEq κ] [DecidableEq ρ] (s : NavState κ ρ)
    (item : NavItem ρ) : NavItem ρ :=
  prevBefore item .null (GetChildrenList s (GetParent s item))

/-- Embedding of `GetNextSibling`. -/
def GetNextSibling [DecidableEq κ] [DecidableEq ρ] (s : NavState κ ρ)
    (item : NavItem ρ) : NavItem ρ :=
  (nextAfter item (GetChildrenList s (GetParent s item))).getD .null

/-- The ancestor-walking loop of `GetNextItem`: while the walker is a
valid item, return its next sibling if there is one, else step to its
parent; falling off the root yields the invalid item.  The parent chain
`row → group → root` has length at most two, so three iterations of
fuel reproduce the `while` loop exactly. -/
def walkUpNext [DecidableEq κ] [DecidableEq ρ] (s : NavState κ ρ) :
    Nat → NavItem ρ → NavItem ρ
  | 0, _ => .null
  | n + 1, w =>
    if w = .null then .null
    else
      let nextItem := GetNextSibling s w
      if nextItem = .null then walkUpNext s n (GetParent s w) else nextItem

/-- Embedding of `GetNextItem`: an invalid or expanded item descends to
its first child (`children[0]`, whose `IndexError` on an empty child
list is the `none` result); otherwise walk up through ancestors looking
for a next sibling; with `wrap`, an invalid outcome becomes
`GetFirstItem`. -/
def GetNextItem [DecidableEq κ] [DecidableEq ρ] (s : NavState κ ρ) (item : NavItem ρ)
    (wrap : Bool) : Option (NavItem ρ) :=
  let nextItem? : Option (NavItem ρ) :=
    if item = .null ∨ IsExpanded s item = true then
      (GetChildrenList s item).head?
    else
      some (walkUpNext s 3 item)
  match nextItem? with
  | none => none
  | some nextItem =>
    if wrap ∧ nextItem = .null then some (GetFirstItem s) else some nextItem

/-- Embedding of `GetPreviousItem`: the previous sibling, replaced by
the parent when there is none, or by its last child (`children[-1]`,
`none` on `IndexError`) when the previous sibling is expanded; with
`wrap`, an invalid outcome becomes `GetLastItem`. -/
def GetPreviousItem [DecidableEq κ] [DecidableEq ρ] (s : NavState κ ρ) (item : NavItem ρ)
    (wrap : Bool) : Option (NavItem ρ) :=
  let previousItem0 := GetPreviousSibling s item
  let previousItem? : Option (NavItem ρ) :=
    if previousItem0 = .null then some (GetParent s item)
    else if IsExpanded s previousItem0 = true then (GetChildrenList s previousItem0).getLast?
    else some previousItem0
  match previousItem? with
  | none => none
  | some previousItem =>
    if wrap ∧ previousItem = .null then some (GetLastItem s) else some previousItem

/-- Embedding of `IsContainer`: the hidden root and `DataListGroup`
nodes are containers, everything else is not. -/
def IsContainer (s : NavState κ ρ) (item : NavItem ρ) : Bool :=
  match item with
  | .null => true
  | .group _ => true
  | .row _ => false

/-- A grouped state with two expanded non-empty groups: the visible
roots are the two groups. -/
def navGrouped : NavState Nat Nat where
  showGroups := true
  groups := [⟨0, [10]⟩, ⟨1, [20]⟩]
  modelObjects := [10, 20]
  showEmptyGroups := false
  emptyGroups := []
  expandedGroup := fun _ => true
  rowFilter := none

/-- An ungrouped, unfiltered state holding three distinct objects. -/
def navFlat : NavState Nat Nat where
  showGroups := false
  groups := []
  modelObjects := [1, 2, 3]
  showEmptyGroups := false
  emptyGroups := []
  expandedGroup := fun _ => false
  rowFilter := none

/-! ## Theorems -/

theorem membersAll_nil : membersAll ([] : List (DataListGroup κ μ)) = [] := rfl

theorem membersAll_cons (g : DataListGroup κ μ) (gs : List (DataListGroup κ μ)) :
    membersAll (g :: gs) = g.modelObjects ++ membersAll gs := rfl

theorem membersAll_append (l1 l2 : List (DataListGroup κ μ)) :
    membersAll (l1 ++ l2) = membersAll l1 ++ membersAll l2 := by
  simp [membersAll]

theorem membersAll_update_perm [DecidableEq κ] (k0 : κ) (o : μ) :
    ∀ (m : List (DataListGroup κ μ)), (m.map (fun g => g.key)).Nodup →
    m.any (fun g => g.key = k0) = true →
    membersAll (m.map (fun g =>
      if g.key = k0 then { g with modelObjects := g.modelObjects ++ [o] } else g)) ~
      o :: membersAll m := by
  intro m
  induction m with
  | nil => intro _ h; simp at h
  | cons g gs ih =>
    intro hnodup hany
    simp only [List.map_cons, List.nodup_cons, List.mem_map] at hnodup
    by_cases hg : g.key = k0
    · have hgs : gs.map (fun g' =>
          if g'.key = k0 then { g' with modelObjects := g'.modelObjects ++ [o] } else g') = gs := by
        conv_rhs => rw [← List.map_id gs]
        apply List.map_congr_left
        intro a ha
        have : a.key ≠ k0 := by
          intro hk
          exact hnodup.1 ⟨a, ha, by rw [hk, hg]⟩
        simp [this]
      simp only [List.map_cons, if_pos hg, hgs, membersAll_cons]
      calc (g.modelObjects ++ [o]) ++ membersAll gs
          = g.modelObjects ++ (o :: membersAll gs) := by simp
        _ ~ o :: (g.modelObjects ++ membersAll gs) := List.perm_middle
    · have hany' : gs.any (fun g' => g'.key = k0) = true := by
        simpa [List.any_cons, hg] using hany
      simp only [List.map_cons, if_neg hg, membersAll_cons]
      calc g.modelObjects ++ membersAll (gs.map _)
          ~ g.modelObjects ++ (o :: membersAll gs) :=
            List.Perm.append_left _ (ih hnodup.2 hany')
        _ ~ o :: (g.modelObjects ++ membersAll gs) := List.perm_middle

theorem buildStep_inv [DecidableEq κ] (k : μ → κ) (ts : κ → String)
    (m : List (DataListGroup κ μ)) (model : μ) (hinv : GroupsInv k m) :
    GroupsInv k (buildStep k ts m model) ∧
    membersAll (buildStep k ts m model) ~ model :: membersAll m ∧
    (∀ g ∈ buildStep k ts m model,
      g.key ∈ m.map (fun g' => g'.key) ∨ g.key = k model) ∧
    ((∀ g ∈ m, g.isEmptyGroup = false) → ∀ g ∈ buildStep k ts m model, g.isEmptyGroup = false) := by
  obtain ⟨hnodup, hkey⟩ := hinv
  unfold buildStep
  by_cases hany : m.any (fun g => g.key = k model) = true
  · rw [if_pos hany]
    refine ⟨⟨?_, ?_⟩, membersAll_update_perm _ _ m hnodup hany, ?_, ?_⟩
    · have : (m.map (fun g =>
          if g.key = k model then { g with modelObjects := g.modelObjects ++ [model] } else g)).map
            (fun g => g.key) = m.map (fun g => g.key) := by
        rw [List.map_map]
        apply List.map_congr_left
        intro a _
        by_cases h : a.key = k model <;> simp [h]
      rw [this]; exact hnodup
    · intro g hg o ho
      obtain ⟨g0, hg0, rfl⟩ := List.mem_map.mp hg
      by_cases h : g0.key = k model
      · rw [if_pos h] at ho ⊢
        simp only [List.mem_append, List.mem_singleton] at ho
        rcases ho with ho | rfl
        · exact hkey g0 hg0 o ho
        · exact h.symm
      · rw [if_neg h] at ho ⊢
        exact hkey g0 hg0 o ho
    · intro g hg
      obtain ⟨g0, hg0, rfl⟩ := List.mem_map.mp hg
      left
      by_cases h : g0.key = k model
      · rw [if_pos h]
        exact List.mem_map.mpr ⟨g0, hg0, rfl⟩
      · rw [if_neg h]
        exact List.mem_map.mpr ⟨g0, hg0, rfl⟩
    · intro hflag g hg
      obtain ⟨g0, hg0, rfl⟩ := List.mem_map.mp hg
      by_cases h : g0.key = k model
      · rw [if_pos h]
        exact hflag g0 hg0
      · rw [if_neg h]
        exact hflag g0 hg0
  · rw [if_neg hany]
    have hnotmem : k model ∉ m.map (fun g => g.key) := by
      intro hmem
      obtain ⟨g0, hg0, hk0⟩ := List.mem_map.mp hmem
      have : m.any (fun g => g.key = k model) = true :=
        List.any_eq_true.mpr ⟨g0, hg0, by simp [hk0]⟩
      exact hany this
    refine ⟨⟨?_, ?_⟩, ?_, ?_, ?_⟩
    · simp only [List.map_append, List.map_cons, List.map_nil]
      rw [List.nodup_append]
      exact ⟨hnodup, List.nodup_singleton _, by
        intro a ha hb
        simp only [List.mem_cons, List.not_mem_nil, or_false] at hb
        subst hb
        exact hnotmem ha⟩
    · intro g hg o ho
      rcases List.mem_append.mp hg with h | h
      · exact hkey g h o ho
      · simp only [List.mem_cons, List.not_mem_nil, or_false] at h
        subst h
        simp only [List.mem_singleton] at ho
        subst ho
        rfl
    · rw [membersAll_append]
      simp [membersAll, List.perm_append_singleton]
    · intro g hg
      rcases List.mem_append.mp hg with h | h
      · exact Or.inl (List.mem_map.mpr ⟨g, h, rfl⟩)
      · simp only [List.mem_cons, List.not_mem_nil, or_false] at h
        subst h
        exact Or.inr rfl
    · intro hflag g hg
      rcases List.mem_append.mp hg with h | h
      · exact hflag g h
      · simp only [List.mem_cons, List.not_mem_nil, or_false] at h
        subst h
        rfl

theorem buildCore_go [DecidableEq κ] (k : μ → κ) (ts : κ → String) :
    ∀ (objects : List μ) (m : List (DataListGroup κ μ)), GroupsInv k m →
    GroupsInv k (objects.foldl (buildStep k ts) m) ∧
    membersAll (objects.foldl (buildStep k ts) m) ~ membersAll m ++ objects ∧
    (∀ g ∈ objects.foldl (buildStep k ts) m,
      g.key ∈ m.map (fun g' => g'.key) ∨ ∃ o ∈ objects, k o = g.key) ∧
    ((∀ g ∈ m, g.isEmptyGroup = false) →
      ∀ g ∈ objects.foldl (buildStep k ts) m, g.isEmptyGroup = false) := by
  intro objects
  induction objects with
  | nil =>
    intro m hinv
    exact ⟨hinv, by simp, fun g hg => Or.inl (List.mem_map.mpr ⟨g, hg, rfl⟩), fun h => h⟩
  | cons x xs ih =>
    intro m hinv
    obtain ⟨hinv', hperm', hkeys', hflag'⟩ := buildStep_inv k ts m x hinv
    obtain ⟨hinv'', hperm'', hkeys'', hflag''⟩ := ih (buildStep k ts m x) hinv'
    refine ⟨hinv'', ?_, ?_, ?_⟩
    · calc membersAll (xs.foldl (buildStep k ts) (buildStep k ts m x))
          ~ membersAll (buildStep k ts m x) ++ xs := hperm''
        _ ~ (x :: membersAll m) ++ xs := hperm'.append_right xs
        _ = x :: (membersAll m ++ xs) := rfl
        _ ~ membersAll m ++ x :: xs := List.perm_middle.symm
    · intro g hg
      rcases hkeys'' g hg with h | ⟨o, ho, hko⟩
      · obtain ⟨g0, hg0, hk0⟩ := List.mem_map.mp h
        rcases hkeys' g0 hg0 with h' | h'
        · exact Or.inl (hk0 ▸ h')
        · exact Or.inr ⟨x, List.mem_cons_self x xs, h'.symm.trans hk0⟩
      · exact Or.inr ⟨o, List.mem_cons_of_mem x ho, hko⟩
    · intro hflag
      exact hflag'' (hflag' hflag)

theorem buildCore_inv [DecidableEq κ] (k : μ → κ) (ts : κ → String) (objects : List μ) :
    GroupsInv k (buildCore k ts objects) ∧
    membersAll (buildCore k ts objects) ~ objects ∧
    (∀ g ∈ buildCore k ts objects, ∃ o ∈ objects, k o = g.key) ∧
    (∀ g ∈ buildCore k ts objects, g.isEmptyGroup = false) := by
  have h0 : GroupsInv k ([] : List (DataListGroup κ μ)) := ⟨List.nodup_nil, by simp⟩
  obtain ⟨hinv, hperm, hkeys, hflag⟩ := buildCore_go k ts objects [] h0
  refine ⟨hinv, by simpa [membersAll] using hperm, ?_, hflag (by simp)⟩
  intro g hg
  rcases hkeys g hg with h | h
  · simp at h
  · exact h

theorem addEmptyGroups_go [DecidableEq κ] (ts : κ → String) :
    ∀ (eks : List κ) (m : List (DataListGroup κ μ)),
    (∀ g ∈ m, g ∈ addEmptyGroups ts eks m) ∧
    (∀ g ∈ addEmptyGroups ts eks m, g ∈ m ∨ (g.modelObjects = [] ∧ g.isEmptyGroup = true)) ∧
    ((m.map (fun g => g.key)).Nodup → ((addEmptyGroups ts eks m).map (fun g => g.key)).Nodup) ∧
    (∀ g ∈ addEmptyGroups ts eks m, g.key ∈ m.map (fun g' => g'.key) ∨ g.key ∈ eks) := by
  intro eks
  induction eks with
  | nil =>
    intro m
    exact ⟨fun g hg => hg, fun g hg => Or.inl hg, fun h => h,
      fun g hg => Or.inl (List.mem_map.mpr ⟨g, hg, rfl⟩)⟩
  | cons e rest ih =>
    intro m
    show (∀ g ∈ m, g ∈ addEmptyGroups ts (e :: rest) m) ∧ _
    have step_eq : addEmptyGroups ts (e :: rest) m =
        addEmptyGroups ts rest
          (if m.any (fun g => g.key = e) then m else m ++ [⟨e, ts e, [], true⟩]) := by
      simp only [addEmptyGroups, List.foldl_cons]
    by_cases hany : m.any (fun g => g.key = e) = true
    · rw [step_eq, if_pos hany]
      obtain ⟨h1, h2, h3, h4⟩ := ih m
      refine ⟨h1, h2, h3, ?_⟩
      intro g hg
      rcases h4 g hg with h | h
      · exact Or.inl h
      · exact Or.inr (List.mem_cons_of_mem e h)
    · rw [step_eq, if_neg (by simp [hany])]
      obtain ⟨h1, h2, h3, h4⟩ := ih (m ++ [⟨e, ts e, [], true⟩])
      refine ⟨?_, ?_, ?_, ?_⟩
      · intro g hg
        exact h1 g (List.mem_append.mpr (Or.inl hg))
      · intro g hg
        rcases h2 g hg with h | h
        · rcases List.mem_append.mp h with h' | h'
          · exact Or.inl h'
          · simp only [List.mem_cons, List.not_mem_nil, or_false] at h'
            subst h'
            exact Or.inr ⟨rfl, rfl⟩
        · exact Or.inr h
      · intro hnodup
        apply h3
        simp only [List.map_append, List.map_cons, List.map_nil]
        rw [List.nodup_append]
        refine ⟨hnodup, List.nodup_singleton _, ?_⟩
        intro a ha hb
        simp only [List.mem_cons, List.not_mem_nil, or_false] at hb
        subst hb
        obtain ⟨g0, hg0, hk0⟩ := List.mem_map.mp ha
        exact hany (List.any_eq_true.mpr ⟨g0, hg0, by simp [hk0]⟩)
      · intro g hg
        rcases h4 g hg with h | h
        · simp only [List.map_append, List.map_cons, List.map_nil, List.mem_append,
            List.mem_cons, List.not_mem_nil, or_false] at h
          rcases h with h | h
          · exact Or.inl h
          · exact Or.inr (h ▸ List.mem_cons_self e rest)
        · exact Or.inr (List.mem_cons_of_mem e h)

theorem addEmptyGroups_membersAll [DecidableEq κ] (ts : κ → String) :
    ∀ (eks : List κ) (m : List (DataListGroup κ μ)),
    membersAll (addEmptyGroups ts eks m) = membersAll m ∧
    (addEmptyGroups ts eks m).filter (fun g => !g.isEmptyGroup) =
      m.filter (fun g => !g.isEmptyGroup) := by
  intro eks
  induction eks with
  | nil => intro m; simp [addEmptyGroups]
  | cons e rest ih =>
    intro m
    have step_eq : addEmptyGroups ts (e :: rest) m =
        addEmptyGroups ts rest
          (if m.any (fun g => g.key = e) then m else m ++ [⟨e, ts e, [], true⟩]) := by
      simp only [addEmptyGroups, List.foldl_cons]
    by_cases hany : m.any (fun g => g.key = e) = true
    · rw [step_eq, if_pos hany]; exact ih m
    · rw [step_eq, if_neg (by simp [hany])]
      obtain ⟨h1, h2⟩ := ih (m ++ [⟨e, ts e, [], true⟩])
      constructor
      · rw [h1, membersAll_append]; simp [membersAll]
      · rw [h2, List.filter_append]; simp

/-- Claim C1 (partition invariant of `_BuildGroups`): the members of the
produced groups, excluding the synthesized empty groups, are a
permutation of the input objects (every input object appears exactly
once overall); the member lists are pairwise disjoint; and every member
carries its group's key. -/
theorem buildGroups_partition [DecidableEq κ] [DecidableEq μ] (k : μ → κ)
    (ts : κ → String) (emptyGroups : List κ) (objects : List μ) :
    membersAll ((_BuildGroups k ts emptyGroups objects).filter (fun g => !g.isEmptyGroup)) ~
      objects ∧
    (_BuildGroups k ts emptyGroups objects).Pairwise
      (fun g1 g2 => ∀ o, o ∈ g1.modelObjects → o ∉ g2.modelObjects) ∧
    ∀ g ∈ _BuildGroups k ts emptyGroups objects, ∀ o ∈ g.modelObjects, k o = g.key := by
  obtain ⟨⟨hnodup, hkey⟩, hperm, _, hflag⟩ := buildCore_inv k ts objects
  obtain ⟨hmono, hback, hnodup', _⟩ := addEmptyGroups_go ts emptyGroups (buildCore k ts objects)
  obtain ⟨hmem, hfilter⟩ := addEmptyGroups_membersAll ts emptyGroups (buildCore k ts objects)
  have hkey' : ∀ g ∈ _BuildGroups k ts emptyGroups objects, ∀ o ∈ g.modelObjects, k o = g.key := by
    intro g hg o ho
    rcases hback g hg with h | h
    · exact hkey g h o ho
    · rw [h.1] at ho; simp at ho
  refine ⟨?_, ?_, hkey'⟩
  · rw [show _BuildGroups k ts emptyGroups objects =
      addEmptyGroups ts emptyGroups (buildCore k ts objects) from rfl, hfilter]
    have : (buildCore k ts objects).filter (fun g => !g.isEmptyGroup) =
        buildCore k ts objects := by
      apply List.filter_eq_self.mpr
      intro g hg
      simp [hflag g hg]
    rw [this]
    exact hperm
  · have hkeysnd : ((_BuildGroups k ts emptyGroups objects).map (fun g => g.key)).Nodup :=
      hnodup' hnodup
    have hpw : (_BuildGroups k ts emptyGroups objects).Pairwise
        (fun g1 g2 => g1.key ≠ g2.key) := by
      rw [List.Nodup, List.pairwise_map] at hkeysnd
      exact hkeysnd
    refine hpw.imp_of_mem ?_
    intro g1 g2 h1 h2 hne o ho1 ho2
    exact hne ((hkey' g1 h1 o ho1).symm.trans (hkey' g2 h2 o ho2))

/-- Claim C8 (empty-group synthesis): every key in `emptyGroups` whose
group key matches no input object yields a synthesized group with that
key and an empty member list. -/
theorem buildGroups_emptyGroup [DecidableEq κ] (k : μ → κ) (ts : κ → String)
    (emptyGroups : List κ) (objects : List μ) (key : κ)
    (hmem : key ∈ emptyGroups) (hfresh : ∀ o ∈ objects, k o ≠ key) :
    ∃ g ∈ _BuildGroups k ts emptyGroups objects,
      g.key = key ∧ g.modelObjects = [] ∧ g.isEmptyGroup = true := by
  obtain ⟨_, _, hkeys, _⟩ := buildCore_inv k ts objects
  have hnokey : ∀ g ∈ buildCore k ts objects, g.key ≠ key := by
    intro g hg hk
    obtain ⟨o, ho, hko⟩ := hkeys g hg
    exact hfresh o ho (hko.trans hk)
  clear hkeys
  show ∃ g ∈ addEmptyGroups ts emptyGroups (buildCore k ts objects),
    g.key = key ∧ g.modelObjects = [] ∧ g.isEmptyGroup = true
  revert hnokey
  generalize buildCore k ts objects = m
  induction emptyGroups generalizing m with
  | nil => cases hmem
  | cons e rest ih =>
    intro hnokey
    have step_eq : addEmptyGroups ts (e :: rest) m =
        addEmptyGroups ts rest
          (if m.any (fun g => g.key = e) then m else m ++ [⟨e, ts e, [], true⟩]) := by
      simp only [addEmptyGroups, List.foldl_cons]
    show ∃ g ∈ addEmptyGroups ts (e :: rest) m, _
    by_cases he : e = key
    · subst he
      have hany : m.any (fun g => g.key = e) = false := by
        rw [List.any_eq_false]
        intro g hg
        simp [hnokey g hg]
      rw [step_eq, hany, if_neg (by simp)]
      obtain ⟨hmono, _, _, _⟩ := addEmptyGroups_go ts rest (m ++ [⟨e, ts e, [], true⟩])
      exact ⟨⟨e, ts e, [], true⟩,
        hmono _ (List.mem_append.mpr (Or.inr (List.mem_singleton.mpr rfl))), rfl, rfl, rfl⟩
    · have hmem' : key ∈ rest := by
        rcases List.mem_cons.mp hmem with h | h
        · exact absurd h.symm he
        · exact h
      rw [step_eq]
      by_cases hany : m.any (fun g => g.key = e) = true
      · rw [if_pos hany]
        exact ih hmem' m hnokey
      · rw [if_neg (by simp [hany])]
        apply ih hmem'
        intro g hg
        rcases List.mem_append.mp hg with h | h
        · exact hnokey g h
        · simp only [List.mem_cons, List.not_mem_nil, or_false] at h
          subst h
          simpa using he

/-- Witness for C8: grouping the objects `0, 1` by `n % 3` with
`emptyGroups = [2]` yields a synthesized empty group with key `2`. -/
theorem buildGroups_emptyGroup_witness :
    ∃ g ∈ _BuildGroups (fun n : Nat => n % 3) (fun n => toString n) [2] [0, 1],
      g.key = 2 ∧ g.modelObjects = [] ∧ g.isEmptyGroup = true :=
  buildGroups_emptyGroup (fun n : Nat => n % 3) (fun n => toString n) [2] [0, 1] 2
    (by decide) (by decide)

/-- Counterexample to claim C2: with a cell override (colour `1`), a
column override (`2`), a row override (`3`) and a colour function (`4`)
all registered for the same cell, `GetAttr` applies the colour
function's colour, not the cell-level override's. -/
theorem getAttr_cell_not_first :
    GetAttr_backColor attrAllRegistered 0 0 = some 4 ∧
    GetAttr_backColor attrAllRegistered 0 0 ≠ some 1 := by
  exact ⟨rfl, by decide⟩

/-- Claim C2 as amended: `GetAttr` resolves the cell background with
first-match-wins priority, but the user colour function comes first:
function, then the per-cell override, then per-column, then per-row,
then the cached alternating assignment (the post-sort catalogue when a
resort reset `sortCounter`, else the catalogue filled by
`GetChildren`). -/
theorem getAttr_priority [DecidableEq γ] (m : AttrModel ρ γ) (node : ρ) (column : Nat)
    (f : ρ → Nat → Option (ColorSpec γ)) (hf : m.colorOverride_function = some f) :
    (∀ c, f node column = some c →
      GetAttr_backColor m node column = some (applyColor m node c)) ∧
    (f node column = none →
      (∀ c, m.colorOverride_cell (node, column) = some c →
        GetAttr_backColor m node column = some (applyColor m node c)) ∧
      (m.colorOverride_cell (node, column) = none →
        (∀ c, m.colorOverride_column column = some c →
          GetAttr_backColor m node column = some (applyColor m node c)) ∧
        (m.colorOverride_column column = none →
          (∀ c, m.colorOverride_row node = some c →
            GetAttr_backColor m node column = some (applyColor m node c)) ∧
          (m.colorOverride_row node = none → m.sortCounter = none →
            GetAttr_backColor m node column = m.colorCatalogue node)))) := by
  refine ⟨?_, ?_⟩
  · intro c hc
    simp only [GetAttr_backColor, hf, hc]
  · intro hfn
    refine ⟨?_, ?_⟩
    · intro c hc
      simp only [GetAttr_backColor, hf, hfn, hc]
    · intro hcell
      refine ⟨?_, ?_⟩
      · intro c hc
        simp only [GetAttr_backColor, hf, hfn, hcell, hc]
      · intro hcol
        refine ⟨?_, ?_⟩
        · intro c hc
          simp only [GetAttr_backColor, hf, hfn, hcell, hcol, hc]
        · intro hrow hsort
          simp only [GetAttr_backColor, hf, hfn, hcell, hcol, hrow, hsort]
          cases hcat : m.colorCatalogue node <;> simp [hcat]

/-- Witness for the amended C2: when the colour function returns no
colour, the cell-level override is applied. -/
theorem getAttr_priority_witness :
    GetAttr_backColor attrFunctionNoOpinion 0 0 =
      some (applyColor attrFunctionNoOpinion 0 (.single 1)) :=
  ((getAttr_priority attrFunctionNoOpinion 0 0 (fun _ _ => none) rfl).2 rfl).1
    (.single 1) rfl

/-- Counterexample to claim C3: comparing a missing sort value against a
present one with `ascending = true` returns `1`, i.e. the missing value
sorts after the present value, not before it (the claim predicts `-1`,
the missing value first). -/
theorem compare_none_not_first :
    Compare_None sortModelNoneFirstArg (.row 0) (.row 1) 0 true = 1 ∧
    Compare_None sortModelNoneFirstArg (.row 0) (.row 1) 0 true ≠ -1 := by
  exact ⟨rfl, by decide⟩

/-- Claim C3 as amended: the sort value is the pair `(isNone, value)`
compared lexicographically with `False < True` and the result negated
when descending, so a missing value sorts after every present value
when ascending, and before it when descending. -/
theorem compare_none_missing_last (m : SortModel ρ) (item1 item2 : CmpNode ρ)
    (column : Nat) (v : Int) (himg : m.imageColumn column = false)
    (h1 : m.getSortRaw item1 column = none)
    (h2 : m.getSortRaw item2 column = some v) :
    GetSortValue m item1 column = (true, none) ∧
    GetSortValue m item2 column = (false, some v) ∧
    Compare_None m item1 item2 column true = 1 ∧
    Compare_None m item1 item2 column false = -1 := by
  have hv1 : GetSortValue m item1 column = (true, none) := by
    simp [GetSortValue, himg, h1]
  have hv2 : GetSortValue m item2 column = (false, some v) := by
    simp [GetSortValue, himg, h2]
  refine ⟨hv1, hv2, ?_, ?_⟩ <;>
    simp [Compare_None, hv1, hv2, sortPairLt]

/-- Witness for the amended C3 at a concrete model. -/
theorem compare_none_missing_last_witness :
    Compare_None sortModelNoneFirstArg (.row 0) (.row 1) 0 true = 1 ∧
    Compare_None sortModelNoneFirstArg (.row 0) (.row 1) 0 false = -1 := by
  have h := compare_none_missing_last sortModelNoneFirstArg (.row 0) (.row 1) 0 0
    rfl rfl rfl
  exact ⟨h.2.2.1, h.2.2.2⟩

/-- Claim C5: the custom comparator is consulted first per pair and its
result used exactly when it is not the `None` sentinel; in particular an
answer of `0` is used as "equal" rather than treated as fallthrough, and
the default comparison runs for precisely the pairs on which the
comparator answers `None`. -/
theorem compare_custom_dispatch (m : SortModel ρ) (item1 item2 : CmpNode ρ)
    (column : Nat) (ascending : Bool) :
    (∀ o r, item1 = .row o → m.compareFunction item1 item2 column ascending = some r →
      Compare_Row m item1 item2 column ascending = r) ∧
    (∀ o, item1 = .row o → m.compareFunction item1 item2 column ascending = none →
      Compare_Row m item1 item2 column ascending =
        Compare_None m item1 item2 column ascending) ∧
    (∀ i r, item1 = .group i →
      m.groupCompareFunction item1 item2 column ascending = some r →
      Compare_GroupRow m item1 item2 column ascending = r) ∧
    (∀ o r, item1 = .row o → m.compareFunction item1 item2 column ascending = some r →
      Compare_GroupRow m item1 item2 column ascending = r) ∧
    (∀ o, item1 = .row o → m.compareFunction item1 item2 column ascending = none →
      Compare_GroupRow m item1 item2 column ascending =
        Compare_None m item1 item2 column ascending) := by
  refine ⟨?_, ?_, ?_, ?_, ?_⟩
  · intro o r h1 hc
    subst h1
    simp [Compare_Row, hc]
  · intro o h1 hc
    subst h1
    simp [Compare_Row, hc]
  · intro i r h1 hc
    subst h1
    simp [Compare_GroupRow, hc]
  · intro o r h1 hc
    subst h1
    simp [Compare_GroupRow, hc]
  · intro o h1 hc
    subst h1
    simp [Compare_GroupRow, hc]

/-- Witness for C5: the comparator's falsy answer `0` is used as the
result for the pair it covers, while a pair it has no opinion on falls
through to the default comparison, which orders the rows by value. -/
theorem compare_custom_dispatch_witness :
    Compare_Row sortModelCustom (.row 0) (.row 1) 0 true = 0 ∧
    Compare_Row sortModelCustom (.row 2) (.row 3) 0 true =
      Compare_None sortModelCustom (.row 2) (.row 3) 0 true ∧
    Compare_None sortModelCustom (.row 2) (.row 3) 0 true = -1 := by
  refine ⟨(compare_custom_dispatch sortModelCustom (.row 0) (.row 1) 0 true).1 0 0 rfl rfl,
    (compare_custom_dispatch sortModelCustom (.row 2) (.row 3) 0 true).2.1 2 rfl rfl,
    by decide⟩

theorem sortPairLt_irrefl (p : Bool × Option Int) : sortPairLt p p = false := by
  obtain ⟨b, v⟩ := p
  cases v <;> simp [sortPairLt]

/-- Claim C4 (sort stability): whenever `a` occurs before `b` in the
input and the two have equal sort keys, `a` still occurs before `b` in
the output of `_SortObjects`, for both sort directions. -/
theorem sortObjects_stable (getValue : μ → Option Int) (sortAscending : Bool)
    (a b : μ) (l : List μ) (hsub : [a, b] <+ l)
    (hkey : _getSortValue getValue a = _getSortValue getValue b) :
    [a, b] <+ _SortObjects getValue sortAscending l := by
  apply List.pair_sublist_insertionSort ?_ hsub
  rw [hkey]
  cases sortAscending <;>
    simp [sortPairLe, sortPairLt_irrefl]

/-- Witness for C4, the spec's Scenario A: sorting
`[(b, 3), (a, 3), (c, 1)]` by age keeps `b` before `a` in both
directions, and the ascending result is exactly `[(c, 1), (b, 3),
(a, 3)]`. -/
theorem sortObjects_stable_witness :
    [("b", 3), ("a", 3)] <+
      _SortObjects (fun x : String × Int => some x.2) true
        [("b", 3), ("a", 3), ("c", 1)] ∧
    [("b", 3), ("a", 3)] <+
      _SortObjects (fun x : String × Int => some x.2) false
        [("b", 3), ("a", 3), ("c", 1)] ∧
    _SortObjects (fun x : String × Int => some x.2) true
        [("b", 3), ("a", 3), ("c", 1)] =
      [("c", 1), ("b", 3), ("a", 3)] := by
  refine ⟨sortObjects_stable _ true ("b", 3) ("a", 3) _ ?_ rfl,
    sortObjects_stable _ false ("b", 3) ("a", 3) _ ?_ rfl, ?_⟩
  · exact List.Sublist.cons₂ _ (List.Sublist.cons₂ _ (List.nil_sublist _))
  · exact List.Sublist.cons₂ _ (List.Sublist.cons₂ _ (List.nil_sublist _))
  · decide

/-- Claim C6: `GetValue` resolution order and its failure sentinel.  An
attribute hit wins (called when callable, else its value is used), a
missed or `None`-valued attribute falls through to indexed access, a
callable munger's result is used directly with its `TypeError` caught,
and when every form fails the result is the `none` sentinel — the
function is total, so no resolution failure escapes `GetValue`. -/
theorem getValue_resolution (defn : ColumnDefn ν) (modelObject : PyObject ν) :
    (∀ s v, defn.valueGetter = some (.name s) →
      modelObject.getattr s = some (.plain v) →
      defn.GetValue modelObject = some v) ∧
    (∀ s r, defn.valueGetter = some (.name s) →
      modelObject.getattr s = some (.method r) →
      defn.GetValue modelObject = some r) ∧
    (∀ s, defn.valueGetter = some (.name s) →
      (modelObject.getattr s = none ∨ modelObject.getattr s = some .noneVal) →
      defn.GetValue modelObject = modelObject.getitem_str s) ∧
    (∀ f, defn.valueGetter = some (.callable f) →
      defn.GetValue modelObject = f modelObject) ∧
    (∀ i, defn.valueGetter = some (.index i) →
      defn.GetValue modelObject = modelObject.getitem_int i) ∧
    (defn.valueGetter = none → defn.GetValue modelObject = none) := by
  refine ⟨?_, ?_, ?_, ?_, ?_, ?_⟩
  · intro s v hm ha
    simp [ColumnDefn.GetValue, _Munge, hm, ha]
  · intro s r hm ha
    simp [ColumnDefn.GetValue, _Munge, hm, ha]
  · intro s hm ha
    rcases ha with ha | ha <;> simp [ColumnDefn.GetValue, _Munge, hm, ha]
  · intro f hm
    simp only [ColumnDefn.GetValue, _Munge, hm]
    cases h : f modelObject <;> simp [h]
  · intro i hm
    simp [ColumnDefn.GetValue, _Munge, hm]
  · intro hm
    simp [ColumnDefn.GetValue, _Munge, hm]

/-- Witness for C6: on `pyObjBoth` the attribute wins over the index for
reading, and an unresolvable getter yields the sentinel. -/
theorem getValue_resolution_witness :
    ColumnDefn.GetValue ⟨some (.name "x"), none⟩ pyObjBoth = some 5 ∧
    ColumnDefn.GetValue ⟨some (.name "y"), none⟩ pyObjBoth = none := by
  constructor
  · exact (getValue_resolution ⟨some (.name "x"), none⟩ pyObjBoth).1 "x" 5 rfl rfl
  · exact ((getValue_resolution ⟨some (.name "y"), none⟩ pyObjBoth).2.2.1 "y" rfl
      (Or.inl rfl)).trans rfl

/-- Counterexample to claim C7: the claim states that `SetValue`
resolves with the same order as `GetValue` — attribute lookup before
indexed access — so on `pyObjBoth`, whose name `x` is both an existing
plain attribute and an assignable index key, it predicts an attribute
assignment; the code performs the indexed assignment first. -/
theorem setValue_not_getValue_order :
    ColumnDefn.SetValue ⟨some (.name "x"), some (.name "x")⟩ pyObjBoth 9 =
      SetEffect.setitem_str "x" 9 ∧
    ColumnDefn.SetValue ⟨some (.name "x"), some (.name "x")⟩ pyObjBoth 9 ≠
      SetEffect.setattr "x" 9 ∧
    pyObjBoth.getattr "x" = some (.plain 5) := by
  exact ⟨rfl, by decide, rfl⟩

/-- Claim C7 as amended: `SetValue` resolves the setter munger (or the
getter when no setter is given, in which case callables are not
invoked) in the order: callable munger first — invoked only when a real
setter was supplied — then indexed assignment, then attribute lookup,
where a callable attribute is invoked rather than assigned; it is a
no-op rather than an error when nothing matches. -/
theorem setValue_resolution (defn : ColumnDefn ν) (modelObject : PyObject ν) (value : ν) :
    (∀ f, defn.valueSetter = some (.callable f) →
      ColumnDefn.SetValue defn modelObject value = .calledMunger) ∧
    (defn.valueSetter = none → ∀ f, defn.valueGetter = some (.callable f) →
      ColumnDefn.SetValue defn modelObject value = .noop) ∧
    (∀ s, defn.valueSetter = some (.name s) → modelObject.setitem_str_ok s = true →
      ColumnDefn.SetValue defn modelObject value = .setitem_str s value) ∧
    (∀ s r, defn.valueSetter = some (.name s) → modelObject.setitem_str_ok s = false →
      modelObject.getattr s = some (.method r) →
      ColumnDefn.SetValue defn modelObject value = .calledMethod s value) ∧
    (∀ s v, defn.valueSetter = some (.name s) → modelObject.setitem_str_ok s = false →
      modelObject.getattr s = some (.plain v) → modelObject.setattr_ok s = true →
      ColumnDefn.SetValue defn modelObject value = .setattr s value) ∧
    (∀ s, defn.valueSetter = some (.name s) → modelObject.setitem_str_ok s = false →
      modelObject.getattr s = none →
      ColumnDefn.SetValue defn modelObject value = .noop) ∧
    (∀ i, defn.valueSetter = some (.index i) → modelObject.setitem_int_ok i = false →
      ColumnDefn.SetValue defn modelObject value = .noop) := by
  refine ⟨?_, ?_, ?_, ?_, ?_, ?_, ?_⟩
  · intro f hs
    simp [ColumnDefn.SetValue, _SetValueUsingMunger, hs]
  · intro hs f hg
    simp [ColumnDefn.SetValue, _SetValueUsingMunger, hs, hg]
  · intro s hs hi
    simp [ColumnDefn.SetValue, _SetValueUsingMunger, hs, hi]
  · intro s r hs hi ha
    simp [ColumnDefn.SetValue, _SetValueUsingMunger, hs, hi, ha]
  · intro s v hs hi ha hok
    simp [ColumnDefn.SetValue, _SetValueUsingMunger, hs, hi, ha, hok]
  · intro s hs hi ha
    simp [ColumnDefn.SetValue, _SetValueUsingMunger, hs, hi, ha]
  · intro i hs hi
    simp [ColumnDefn.SetValue, _SetValueUsingMunger, hs, hi]

/-- Witness for the amended C7: with no index slot the plain attribute
is assigned, and an entirely unresolvable setter is a no-op. -/
theorem setValue_resolution_witness :
    ColumnDefn.SetValue ⟨none, some (.name "x")⟩ pyObjAttrOnly 9 =
      SetEffect.setattr "x" 9 ∧
    ColumnDefn.SetValue ⟨none, some (.name "y")⟩ pyObjAttrOnly 9 = SetEffect.noop := by
  constructor
  · exact (setValue_resolution ⟨none, some (.name "x")⟩ pyObjAttrOnly 9).2.2.2.2.1
      "x" 5 rfl rfl rfl rfl
  · exact (setValue_resolution ⟨none, some (.name "y")⟩ pyObjAttrOnly 9).2.2.2.2.2.1
      "y" rfl rfl rfl

/-- Claim C10: the visible tree is at most two levels deep — only the
hidden root and group nodes are containers, and a plain object row
reports zero children in every model state. -/
theorem model_two_levels [DecidableEq κ] [DecidableEq ρ] (s : NavState κ ρ) :
    IsContainer s (.null : NavItem ρ) = true ∧
    (∀ i : Nat, IsContainer s (.group i : NavItem ρ) = true) ∧
    (∀ o : ρ, IsContainer s (.row o) = false) ∧
    (∀ o : ρ, GetChildrenList s (.row o) = []) :=
  ⟨rfl, fun _ => rfl, fun _ => rfl, fun _ => rfl⟩

/-- Counterexample to claim C9: in `navGrouped` (a non-empty,
unfiltered population) the last row is the expanded group `1`, and
next-visible navigation from it with wrap descends into the group's
first member instead of wrapping to the first row (group `0`). -/
theorem nav_wrap_grouped_cex :
    GetLastItem navGrouped = NavItem.group 1 ∧
    GetNextItem navGrouped (GetLastItem navGrouped) true = some (NavItem.row 20) ∧
    GetFirstItem navGrouped = NavItem.group 0 ∧
    some (NavItem.row (20 : Nat)) ≠ some (NavItem.group 0) := by
  refine ⟨by decide, by decide, by decide, by decide⟩

theorem nextAfter_getLast [DecidableEq ρ] :
    ∀ (l : List ρ), l.Nodup → ∀ (h : l ≠ []),
    nextAfter (NavItem.row (l.getLast h)) (l.map NavItem.row) = none := by
  intro l
  induction l with
  | nil => intro _ h; exact absurd rfl h
  | cons a t ih =>
    intro hnodup h
    cases t with
    | nil => simp [nextAfter]
    | cons b t2 =>
      have hne : b :: t2 ≠ [] := List.cons_ne_nil b t2
      have hlast : (a :: b :: t2).getLast h = (b :: t2).getLast hne :=
        List.getLast_cons hne
      have hanot : a ∉ b :: t2 := (List.nodup_cons.mp hnodup).1
      have hne2 : a ≠ (b :: t2).getLast hne := by
        intro heq
        exact hanot (heq ▸ List.getLast_mem hne)
      rw [hlast]
      simp only [List.map_cons, nextAfter]
      rw [if_neg (by simp [hne2])]
      exact ih (List.nodup_cons.mp hnodup).2 hne

theorem getLastD_map_row [DecidableEq ρ] :
    ∀ (l : List ρ) (h : l ≠ []),
    (l.map (NavItem.row : ρ → NavItem ρ)).getLastD .null = .row (l.getLast h) := by
  intro l
  induction l with
  | nil => intro h; exact absurd rfl h
  | cons a t ih =>
    intro h
    cases t with
    | nil => rfl
    | cons b t2 =>
      have hne : b :: t2 ≠ [] := List.cons_ne_nil b t2
      rw [List.getLast_cons hne]
      simp only [List.map_cons]
      rw [List.getLastD_cons]
      exact ih hne

/-- Claim C9 as amended: with grouping not shown and no filter, for a
non-empty population of distinct objects, next-visible from the last
row wraps to the first row and previous-visible from the first row
wraps to the last row.  (In grouped mode the next-visible half fails:
an expanded last group descends instead of wrapping, as the
counterexample shows.) -/
theorem nav_wrap_flat [DecidableEq κ] [DecidableEq ρ] (s : NavState κ ρ)
    (hflat : s.showGroups = false) (hfilter : s.rowFilter = none)
    (hne : s.modelObjects ≠ []) (hnodup : s.modelObjects.Nodup) :
    GetNextItem s (GetLastItem s) true = some (GetFirstItem s) ∧
    GetPreviousItem s (GetFirstItem s) true = some (GetLastItem s) := by
  have hchildren : GetChildrenList s .null = s.modelObjects.map NavItem.row := by
    simp [GetChildrenList, hflat, applyRowFilter, hfilter]
  have hparent : ∀ item : NavItem ρ, GetParent s item = .null := by
    intro item
    simp [GetParent, hflat]
  have hlastitem : GetLastItem s = .row (s.modelObjects.getLast hne) := by
    rw [GetLastItem, hchildren]
    exact getLastD_map_row s.modelObjects hne
  constructor
  · have hsib : GetNextSibling s (.row (s.modelObjects.getLast hne)) = .null := by
      rw [GetNextSibling, hparent, hchildren, nextAfter_getLast s.modelObjects hnodup hne]
      rfl
    rw [hlastitem]
    show GetNextItem s (.row (s.modelObjects.getLast hne)) true = some (GetFirstItem s)
    rw [GetNextItem]
    have hcond : ¬((NavItem.row (s.modelObjects.getLast hne) : NavItem ρ) = .null ∨
        IsExpanded s (.row (s.modelObjects.getLast hne)) = true) := by
      simp [IsExpanded]
    rw [if_neg hcond]
    have hwalk : walkUpNext s 3 (.row (s.modelObjects.getLast hne) : NavItem ρ) = .null := by
      rw [walkUpNext]
      rw [if_neg (by simp)]
      simp only [hsib, if_pos rfl, hparent]
      rw [walkUpNext]
      simp
    rw [hwalk]
    simp
  · obtain ⟨a, t, hl⟩ := List.exists_cons_of_ne_nil hne
    have hfirstitem : GetFirstItem s = .row a := by
      rw [GetFirstItem, hchildren, hl]
      rfl
    have hprevsib : GetPreviousSibling s (.row a) = .null := by
      rw [GetPreviousSibling, hparent, hchildren, hl]
      simp [prevBefore]
    rw [hfirstitem, GetPreviousItem]
    simp only [hprevsib, if_pos rfl, hparent]
    simp

/-- Witness for the amended C9 on the concrete flat state `navFlat`. -/
theorem nav_wrap_flat_witness :
    GetNextItem navFlat (GetLastItem navFlat) true = some (GetFirstItem navFlat) ∧
    GetPreviousItem navFlat (GetFirstItem navFlat) true = some (GetLastItem navFlat) :=
  nav_wrap_flat navFlat rfl rfl (by decide) (by decide)

end OLV

